import Mathlib

/-!
Shallow embedding of the Othello engine from `src/main.rs` (board state,
move engine, evaluators, minimax search and agents), together with proofs
of the specification claims about it.

Machine integers: Rust `i32` scores are modelled as `Int` (no arithmetic in
the engine can overflow: piece counts are at most 64); the `i32::MIN` /
`i32::MAX` sentinels are modelled by the explicit constants `i32MIN` /
`i32MAX`.  Rust `usize` coordinates are modelled as `Nat`.  Fallible
constructions (`try_from_tuple`, neighbour lookup) return `Option`; the
panicking selections in the agents (`unwrap`, slice indexing) are modelled
by `Option` results.
-/

def ROWS : Nat := 8
def COLS : Nat := 8

/-- `i32::MIN`, the minimum representable 32-bit signed integer. -/
def i32MIN : Int := -(2 ^ 31)

/-- `i32::MAX`, the maximum representable 32-bit signed integer. -/
def i32MAX : Int := 2 ^ 31 - 1

inductive Color where
  | Black
  | White
deriving DecidableEq

/-- `next_color`: Black and White alternate. -/
def next_color (color : Color) : Color :=
  match color with
  | Color.Black => Color.White
  | Color.White => Color.Black

inductive Dir where
  | Up
  | Down
  | Left
  | Right
  | UpLeft
  | UpRight
  | DownLeft
  | DownRight
deriving DecidableEq

/-- `Dir::dir_to_offset`: the (row offset, column offset) of each direction,
exactly as in the source. -/
def Dir.dir_to_offset (dir : Dir) : Int × Int :=
  match dir with
  | Dir.Up => (0, 1)
  | Dir.Down => (0, -1)
  | Dir.Left => (-1, 0)
  | Dir.Right => (1, 0)
  | Dir.UpLeft => (-1, 1)
  | Dir.UpRight => (1, 1)
  | Dir.DownLeft => (-1, -1)
  | Dir.DownRight => (1, -1)

/-- `DIRS`: the eight ray directions, in source order. -/
def DIRS : List Dir :=
  [Dir.Up, Dir.Down, Dir.Left, Dir.Right,
   Dir.UpLeft, Dir.UpRight, Dir.DownLeft, Dir.DownRight]

inductive Square where
  | Unoccupied
  | Occupied (color : Color)
deriving DecidableEq

/-- `Posn`: a (row, column) pair; `usize` coordinates modelled as `Nat`. -/
structure Posn where
  row : Nat
  col : Nat
deriving DecidableEq

/-- `Posn::try_from_tuple`: bounds-checked construction from `i32`
coordinates; `None` outside `[0,ROWS) x [0,COLS)`. -/
def Posn.try_from_tuple (coords : Int × Int) : Option Posn :=
  if 0 ≤ coords.1 ∧ coords.1 < (ROWS : Int) ∧ 0 ≤ coords.2 ∧ coords.2 < (COLS : Int) then
    some { row := coords.1.toNat, col := coords.2.toNat }
  else
    none

/-- `Posn::neighbor_in_dir`: the neighbour in the given direction, if it is
on the board. -/
def Posn.neighbor_in_dir (p : Posn) (dir : Dir) : Option Posn :=
  Posn.try_from_tuple ((p.row : Int) + (Dir.dir_to_offset dir).1,
                       (p.col : Int) + (Dir.dir_to_offset dir).2)

def Posn.is_row_edge (p : Posn) : Bool :=
  p.row = 0 || p.row = ROWS - 1

def Posn.is_col_edge (p : Posn) : Bool :=
  p.col = 0 || p.col = COLS - 1

def Posn.is_edge (p : Posn) : Bool :=
  p.is_row_edge || p.is_col_edge

def Posn.is_corner (p : Posn) : Bool :=
  p.is_row_edge && p.is_col_edge

/-- `Posn::alphanumeric_to_posn` applied to a two-character string
`<c0><c1>` (e.g. `"e3"`): row from the digit character (`to_digit(10)` then
subtract one), column from the lower-cased letter.  No bounds check is
performed, exactly as in the source. -/
def alphanumeric_to_posn (c0 c1 : Char) : Posn :=
  { row := c1.toNat - (Char.toNat (Char.ofNat 48)) - 1,
    col := c0.toLower.toNat - (Char.toNat (Char.ofNat 97)) }

/-- `generate_positions` / `POSNS`: all board positions in row-major
order. -/
def POSNS : List Posn :=
  (List.range ROWS).flatMap (fun r => (List.range COLS).map (fun c => { row := r, col := c }))

/-- `Board`: an `N x N` grid of squares (modelled as a total function from
coordinates, written only through `set_piece_at`) plus the side to move. -/
structure Board where
  squares : Nat → Nat → Square
  turn : Color

/-- `Board::new`: the standard initial layout, Black to move. -/
def Board.new : Board :=
  { squares := fun r c =>
      if r = ROWS / 2 - 1 ∧ c = COLS / 2 - 1 then Square.Occupied Color.Black
      else if r = ROWS / 2 - 1 ∧ c = COLS / 2 then Square.Occupied Color.White
      else if r = ROWS / 2 ∧ c = COLS / 2 - 1 then Square.Occupied Color.White
      else if r = ROWS / 2 ∧ c = COLS / 2 then Square.Occupied Color.Black
      else Square.Unoccupied,
    turn := Color.Black }

def Board.piece_at (b : Board) (p : Posn) : Square :=
  b.squares p.row p.col

def Board.set_piece_at (b : Board) (p : Posn) (sq : Square) : Board :=
  { b with squares := fun r c => if r = p.row ∧ c = p.col then sq else b.squares r c }

def Board.count_color_pieces (b : Board) (color : Color) : Nat :=
  (POSNS.filter (fun p => b.piece_at p = Square.Occupied color)).length

/-- `Board::change_turn`: same squares, other side to move. -/
def Board.change_turn (b : Board) : Board :=
  { squares := b.squares, turn := next_color b.turn }

/-- `Board::score`: White pieces minus Black pieces. -/
def Board.score (b : Board) : Int :=
  (b.count_color_pieces Color.White : Int) - (b.count_color_pieces Color.Black : Int)

/-- The while loop of `potential_flipped_pieces_in_dir`: walk from `curr`
in direction `dir`, accumulating opponent pieces in `line`; stop with
`line` on the mover's own colour, with `[]` on an unoccupied square or on
running off the board.  The fuel starts at `ROWS * COLS`, which is never
exhausted: a ray from any on-board square visits fewer than `ROWS * COLS`
squares. -/
def flipsWalk (b : Board) (dir : Dir) : Nat → Option Posn → List Posn → List Posn
  | _, none, _ => []
  | 0, some _, _ => []
  | fuel + 1, some curr, line =>
    match b.piece_at curr with
    | Square.Occupied c =>
      if c = b.turn then line
      else flipsWalk b dir fuel (curr.neighbor_in_dir dir) (line ++ [curr])
    | Square.Unoccupied => []

/-- `Board::potential_flipped_pieces_in_dir`: the capture line from `posn`
in direction `dir`. -/
def Board.potential_flipped_pieces_in_dir (b : Board) (posn : Posn) (dir : Dir) : List Posn :=
  flipsWalk b dir (ROWS * COLS) (posn.neighbor_in_dir dir) []

/-- `Board::potential_flipped_pieces`: concatenation of the capture lines
over all eight directions, in `DIRS` order. -/
def Board.potential_flipped_pieces (b : Board) (posn : Posn) : List Posn :=
  DIRS.flatMap (fun dir => b.potential_flipped_pieces_in_dir posn dir)

def Board.is_legal (b : Board) (posn : Posn) : Bool :=
  b.piece_at posn = Square.Unoccupied && !(b.potential_flipped_pieces posn).isEmpty

def Board.legal_moves (b : Board) : List Posn :=
  POSNS.filter (fun posn => b.is_legal posn)

/-- `Board::is_over`: neither the side to move nor the opponent has a legal
move. -/
def Board.is_over (b : Board) : Bool :=
  b.legal_moves.isEmpty && b.change_turn.legal_moves.isEmpty

/-- `Board::winner`: sign of the score when the game is over, `none`
otherwise. -/
def Board.winner (b : Board) : Option Color :=
  if b.is_over then
    if 0 < b.score then some Color.White
    else if b.score < 0 then some Color.Black
    else none
  else
    none

/-- `Board::play_move`: set every potential flipped piece and then the
played square to the mover's colour, then advance the turn. -/
def Board.play_move (b : Board) (posn : Posn) : Board :=
  let flipped_pieces := b.potential_flipped_pieces posn
  let board := flipped_pieces.foldl
    (fun acc p => acc.set_piece_at p (Square.Occupied acc.turn)) b
  let board := board.set_piece_at posn (Square.Occupied board.turn)
  { board with turn := next_color board.turn }

/-- `standard_heuristic`: the material score. -/
def standard_heuristic (b : Board) : Int :=
  b.score

/-- `edge_corner_heuristic`: corners weigh 4, other edges 2, the rest 1. -/
def edge_corner_heuristic (b : Board) : Int :=
  let color_weighted_score := fun (color : Color) =>
    ((POSNS.filter (fun p => b.piece_at p = Square.Occupied color)).map
      (fun p => if p.is_corner then (4 : Int) else if p.is_edge then 2 else 1)).sum
  color_weighted_score Color.White - color_weighted_score Color.Black

/-- `random_agent`: indexes `legal_moves` with the sampled random number
(`gen_range(0..len)`); the panic on an empty range is modelled by `none`. -/
def random_agent (b : Board) (randomIndex : Nat) : Option Posn :=
  b.legal_moves.get? randomIndex

/-- Rust `Iterator::max_by_key` (also `max_by` comparing on the key): the
element with the maximum key, the last one when several tie; `none` on an
empty iterator (the source unwraps this). -/
def max_by_key (key : α → Int) : List α → Option α
  | [] => none
  | x :: xs => some (xs.foldl (fun a y => if key a ≤ key y then y else a) x)

/-- Rust `Iterator::min_by_key` (also `min_by` comparing on the key): the
element with the minimum key, the first one when several tie; `none` on an
empty iterator (the source unwraps this). -/
def min_by_key (key : α → Int) : List α → Option α
  | [] => none
  | x :: xs => some (xs.foldl (fun a y => if key y < key a then y else a) x)

/-- `heuristic_agent`: the legal move whose successor board has the
extremal heuristic value (max for White, min for Black). -/
def heuristic_agent (b : Board) (heuristic : Board → Int) : Option Posn :=
  match b.turn with
  | Color.White => max_by_key (fun posn => heuristic (b.play_move posn)) b.legal_moves
  | Color.Black => min_by_key (fun posn => heuristic (b.play_move posn)) b.legal_moves

/-- The for loop of `minimax`: scan the legal moves keeping the best score,
returning early as soon as a child attains the mover's sentinel. -/
def minimaxLoop (step : Posn → Int) (turn : Color) : List Posn → Int → Int
  | [], best_score => best_score
  | posn :: rest, best_score =>
    let new_score := step posn
    match turn with
    | Color.White =>
      if best_score < new_score then
        if new_score = i32MAX then new_score
        else minimaxLoop step turn rest new_score
      else minimaxLoop step turn rest best_score
    | Color.Black =>
      if new_score < best_score then
        if new_score = i32MIN then new_score
        else minimaxLoop step turn rest new_score
      else minimaxLoop step turn rest best_score

/-- `minimax`: sentinel at terminal boards, heuristic at depth 0, otherwise
the best child value for the side to move (with the early sentinel
return).  The `i32` depth is modelled as `Nat`; the claims only concern
non-negative depths, where the behaviours coincide. -/
def minimax (b : Board) (depth : Nat) (heuristic : Board → Int) : Int :=
  if b.is_over then
    match b.winner with
    | some Color.Black => i32MIN
    | some Color.White => i32MAX
    | none => 0
  else
    match depth with
    | 0 => heuristic b
    | d + 1 =>
      let best_score : Int :=
        match b.turn with
        | Color.White => i32MIN
        | Color.Black => i32MAX
      minimaxLoop (fun posn => minimax (b.play_move posn) d heuristic) b.turn
        b.legal_moves best_score

/-- `minimax_agent`: the legal move whose minimax value at `depth - 1` is
extremal for the side to move. -/
def minimax_agent (b : Board) (depth : Nat) (heuristic : Board → Int) : Option Posn :=
  match b.turn with
  | Color.White =>
    max_by_key (fun posn => minimax (b.play_move posn) (depth - 1) heuristic) b.legal_moves
  | Color.Black =>
    min_by_key (fun posn => minimax (b.play_move posn) (depth - 1) heuristic) b.legal_moves

/-- Iterated neighbour lookup along a ray: `ray_step dir co n` is the
position `n` steps from `co` in direction `dir`, `none` once the walk has
left the board. -/
def ray_step (dir : Dir) : Option Posn → Nat → Option Posn
  | co, 0 => co
  | co, n + 1 =>
    match ray_step dir co n with
    | some q => q.neighbor_in_dir dir
    | none => none

/-- A board with every square occupied by White (Black to move): used as a
concrete saturated terminal position. -/
def fullWhiteBoard : Board :=
  { squares := fun _ _ => Square.Occupied Color.White, turn := Color.Black }

/-- A pass position: Black at (0,0), White at (0,1), White to move.  White
has no legal move, Black does, so the game is not over. -/
def passBoard : Board :=
  { squares := fun r c =>
      if r = 0 ∧ c = 0 then Square.Occupied Color.Black
      else if r = 0 ∧ c = 1 then Square.Occupied Color.White
      else Square.Unoccupied,
    turn := Color.White }

/-- A position where White has exactly two legal moves, (0,0) and (4,0),
whose successor boards have equal material score. -/
def tieBoard : Board :=
  { squares := fun r c =>
      if r = 0 ∧ c = 1 then Square.Occupied Color.Black
      else if r = 0 ∧ c = 2 then Square.Occupied Color.White
      else if r = 4 ∧ c = 1 then Square.Occupied Color.Black
      else if r = 4 ∧ c = 2 then Square.Occupied Color.White
      else Square.Unoccupied,
    turn := Color.White }

example : Board.new.legal_moves =
    [{ row := 2, col := 4 }, { row := 3, col := 5 }, { row := 4, col := 2 }, { row := 5, col := 3 }] := by
  decide

example : Board.new.potential_flipped_pieces_in_dir { row := 3, col := 5 } Dir.Down =
    [{ row := 3, col := 4 }] := by decide

example : alphanumeric_to_posn 'a' '1' = { row := 0, col := 0 } := by decide

example : alphanumeric_to_posn 'a' '9' = { row := 8, col := 0 } := by decide

example : passBoard.legal_moves = [] ∧ passBoard.is_over = false := by decide

example : tieBoard.legal_moves = [{ row := 0, col := 0 }, { row := 4, col := 0 }] := by decide

lemma legal_moves_eq_nil_of_no_unoccupied (b : Board)
    (h : ∀ p ∈ POSNS, b.piece_at p ≠ Square.Unoccupied) : b.legal_moves = [] := by
  unfold Board.legal_moves
  rw [List.filter_eq_nil_iff]
  intro p hp
  simp [Board.is_legal, h p hp]

/-- C3: `is_over` holds iff both the side to move and the opponent (after
`change_turn`) have no legal moves; a board with no unoccupied square is
always over. -/
theorem c3_is_over_iff (b : Board) :
    (b.is_over = true ↔ b.legal_moves = [] ∧ b.change_turn.legal_moves = []) ∧
    ((∀ p ∈ POSNS, b.piece_at p ≠ Square.Unoccupied) → b.is_over = true) := by
  constructor
  · simp [Board.is_over, List.isEmpty_iff]
  · intro h
    have h1 : b.legal_moves = [] := legal_moves_eq_nil_of_no_unoccupied b h
    have h2 : b.change_turn.legal_moves = [] := by
      apply legal_moves_eq_nil_of_no_unoccupied
      intro p hp
      exact h p hp
    simp [Board.is_over, h1, h2]

theorem c3_witness :
    (∀ p ∈ POSNS, fullWhiteBoard.piece_at p ≠ Square.Unoccupied) ∧
    fullWhiteBoard.is_over = true :=
  ⟨by decide, (c3_is_over_iff fullWhiteBoard).2 (by decide)⟩

/-- C4: `winner` is `some White` iff the game is over with positive score,
`some Black` iff over with negative score, and `none` iff over with zero
score or not over. -/
theorem c4_winner_sign (b : Board) :
    (b.winner = some Color.White ↔ b.is_over = true ∧ 0 < b.score) ∧
    (b.winner = some Color.Black ↔ b.is_over = true ∧ b.score < 0) ∧
    (b.winner = none ↔ (b.is_over = true ∧ b.score = 0) ∨ b.is_over = false) := by
  unfold Board.winner
  by_cases ho : b.is_over = true
  · rcases lt_trichotomy b.score 0 with h | h | h
    · have h1 : ¬(0 < b.score) := by omega
      have h2 : b.score ≠ 0 := by omega
      simp [ho, h, h1, h2]
    · simp [ho, h]
    · have h1 : ¬(b.score < 0) := by omega
      have h2 : b.score ≠ 0 := by omega
      simp [ho, h, h1, h2]
  · have hf : b.is_over = false := by simpa using ho
    simp [hf]

/-- C8 (code bug evaluation): the two-character parse performs no bounds
check: `"a9"` yields row 8, which is outside `[0,ROWS)` and which the
checked constructor `try_from_tuple` rejects; the in-range scenario
examples parse as the spec says. -/
theorem c8_alphanumeric_out_of_range :
    alphanumeric_to_posn 'a' '9' = { row := 8, col := 0 } ∧
    ¬((alphanumeric_to_posn 'a' '9').row < ROWS) ∧
    Posn.try_from_tuple (8, 0) = none ∧
    alphanumeric_to_posn 'a' '1' = { row := 0, col := 0 } ∧
    alphanumeric_to_posn 'h' '8' = { row := 7, col := 7 } := by
  decide

/-- Definitional equation of `minimax` at depth 0. -/
lemma minimax_zero (b : Board) (E : Board → Int) :
    minimax b 0 E =
      if b.is_over then
        (match b.winner with
         | some Color.Black => i32MIN
         | some Color.White => i32MAX
         | none => 0)
      else E b := rfl

/-- Definitional equation of `minimax` at successor depth. -/
lemma minimax_succ (b : Board) (d : Nat) (E : Board → Int) :
    minimax b (d + 1) E =
      if b.is_over then
        (match b.winner with
         | some Color.Black => i32MIN
         | some Color.White => i32MAX
         | none => 0)
      else
        minimaxLoop (fun posn => minimax (b.play_move posn) d E) b.turn b.legal_moves
          (match b.turn with
           | Color.White => i32MIN
           | Color.Black => i32MAX) := rfl

/-- C5: at a terminal board minimax returns the sentinel determined by the
winner, for every depth and evaluator; at a non-terminal board and depth 0
it returns the evaluator's value. -/
theorem c5_minimax_terminal_and_depth0 (b : Board) (d : Nat) (E : Board → Int) :
    (b.is_over = true →
      (b.winner = some Color.White → minimax b d E = i32MAX) ∧
      (b.winner = some Color.Black → minimax b d E = i32MIN) ∧
      (b.winner = none → minimax b d E = 0)) ∧
    (b.is_over = false → minimax b 0 E = E b) := by
  constructor
  · intro ho
    refine ⟨fun hw => ?_, fun hw => ?_, fun hw => ?_⟩ <;>
      cases d <;> simp [minimax_zero, minimax_succ, ho, hw]
  · intro ho
    simp [minimax_zero, ho]

theorem c5_witness :
    fullWhiteBoard.is_over = true ∧ fullWhiteBoard.winner = some Color.White ∧
    Board.new.is_over = false ∧
    minimax fullWhiteBoard 3 standard_heuristic = i32MAX ∧
    minimax Board.new 0 edge_corner_heuristic = edge_corner_heuristic Board.new :=
  ⟨by decide, by decide, by decide,
   ((c5_minimax_terminal_and_depth0 fullWhiteBoard 3 standard_heuristic).1 (by decide)).1
     (by decide),
   (c5_minimax_terminal_and_depth0 Board.new 0 edge_corner_heuristic).2 (by decide)⟩

lemma max_by_key_isSome {α : Type} (key : α → Int) (l : List α) (h : l ≠ []) :
    (max_by_key key l).isSome = true := by
  cases l with
  | nil => exact absurd rfl h
  | cons x xs => simp [max_by_key]

lemma min_by_key_isSome {α : Type} (key : α → Int) (l : List α) (h : l ≠ []) :
    (min_by_key key l).isSome = true := by
  cases l with
  | nil => exact absurd rfl h
  | cons x xs => simp [min_by_key]

/-- C10: with at least one legal move, all three agents produce a move
(every in-range random index succeeds, and the extremal selections are
defined); with no legal move, none of them produces a position. -/
theorem c10_agents_require_moves (b : Board) (E : Board → Int) (d : Nat) :
    (b.legal_moves ≠ [] →
      (∀ k < b.legal_moves.length, (random_agent b k).isSome = true) ∧
      (heuristic_agent b E).isSome = true ∧
      (minimax_agent b d E).isSome = true) ∧
    (b.legal_moves = [] →
      (∀ k : Nat, random_agent b k = none) ∧
      heuristic_agent b E = none ∧
      minimax_agent b d E = none) := by
  constructor
  · intro h
    refine ⟨fun k hk => ?_, ?_, ?_⟩
    · simp [random_agent, List.get?_eq_getElem?, List.getElem?_eq_getElem hk]
    · cases ht : b.turn <;>
        simp [heuristic_agent, ht, max_by_key_isSome, min_by_key_isSome, h]
    · cases ht : b.turn <;>
        simp [minimax_agent, ht, max_by_key_isSome, min_by_key_isSome, h]
  · intro h
    refine ⟨fun k => ?_, ?_, ?_⟩
    · simp [random_agent, h]
    · cases ht : b.turn <;> simp [heuristic_agent, ht, h, max_by_key, min_by_key]
    · cases ht : b.turn <;> simp [minimax_agent, ht, h, max_by_key, min_by_key]

theorem c10_witness :
    Board.new.legal_moves ≠ [] ∧ passBoard.legal_moves = [] ∧
    (heuristic_agent Board.new standard_heuristic).isSome = true ∧
    (minimax_agent Board.new 2 standard_heuristic).isSome = true ∧
    heuristic_agent passBoard standard_heuristic = none ∧
    minimax_agent passBoard 2 standard_heuristic = none :=
  ⟨by decide, by decide,
   ((c10_agents_require_moves Board.new standard_heuristic 2).1 (by decide)).2.1,
   ((c10_agents_require_moves Board.new standard_heuristic 2).1 (by decide)).2.2,
   ((c10_agents_require_moves passBoard standard_heuristic 2).2 (by decide)).2.1,
   ((c10_agents_require_moves passBoard standard_heuristic 2).2 (by decide)).2.2⟩

lemma Posn.eq_iff (p q : Posn) : p = q ↔ p.row = q.row ∧ p.col = q.col := by
  cases p
  cases q
  simp

lemma piece_at_set_piece_at (b : Board) (p q : Posn) (sq : Square) :
    (b.set_piece_at p sq).piece_at q = if q = p then sq else b.piece_at q := by
  simp only [Board.set_piece_at, Board.piece_at, Posn.eq_iff]

lemma turn_set_piece_at (b : Board) (p : Posn) (sq : Square) :
    (b.set_piece_at p sq).turn = b.turn := rfl

lemma piece_at_turn_update (b : Board) (t : Color) (q : Posn) :
    ({ b with turn := t } : Board).piece_at q = b.piece_at q := rfl

lemma foldl_set_turn (l : List Posn) : ∀ acc : Board,
    (l.foldl (fun a p => a.set_piece_at p (Square.Occupied a.turn)) acc).turn = acc.turn := by
  induction l with
  | nil => intro acc; rfl
  | cons x xs ih =>
    intro acc
    rw [List.foldl_cons, ih]
    rfl

lemma piece_at_foldl_set (l : List Posn) : ∀ (acc : Board) (q : Posn),
    (l.foldl (fun a p => a.set_piece_at p (Square.Occupied a.turn)) acc).piece_at q =
      if q ∈ l then Square.Occupied acc.turn else acc.piece_at q := by
  induction l with
  | nil =>
    intro acc q
    simp
  | cons x xs ih =>
    intro acc q
    rw [List.foldl_cons, ih, turn_set_piece_at, piece_at_set_piece_at]
    by_cases hqx : q = x <;> by_cases hql : q ∈ xs <;> simp [hqx, hql]

lemma piece_at_play_move (b : Board) (posn q : Posn) :
    (b.play_move posn).piece_at q =
      if q = posn then Square.Occupied b.turn
      else if q ∈ b.potential_flipped_pieces posn then Square.Occupied b.turn
      else b.piece_at q := by
  unfold Board.play_move
  rw [piece_at_turn_update, piece_at_set_piece_at, foldl_set_turn, piece_at_foldl_set]

lemma turn_play_move (b : Board) (posn : Posn) :
    (b.play_move posn).turn = next_color b.turn := by
  unfold Board.play_move
  show next_color _ = next_color b.turn
  rw [turn_set_piece_at, foldl_set_turn]

/-- C2: after a legal move, the played square and every potential flipped
piece hold the colour that was to move, the turn has advanced to the
opponent, and every other square is unchanged. -/
theorem c2_play_move (b : Board) (posn : Posn) (_h : b.is_legal posn = true) :
    (b.play_move posn).piece_at posn = Square.Occupied b.turn ∧
    (∀ q ∈ b.potential_flipped_pieces posn,
      (b.play_move posn).piece_at q = Square.Occupied b.turn) ∧
    (b.play_move posn).turn = next_color b.turn ∧
    (∀ q : Posn, q ≠ posn → q ∉ b.potential_flipped_pieces posn →
      (b.play_move posn).piece_at q = b.piece_at q) := by
  refine ⟨?_, fun q hq => ?_, turn_play_move b posn, fun q hq1 hq2 => ?_⟩
  · simp [piece_at_play_move]
  · by_cases hqp : q = posn <;> simp [piece_at_play_move, hqp, hq]
  · simp [piece_at_play_move, hq1, hq2]

theorem c2_witness :
    Board.new.is_legal { row := 3, col := 5 } = true ∧
    (Board.new.play_move { row := 3, col := 5 }).piece_at { row := 3, col := 5 } =
      Square.Occupied Color.Black ∧
    (Board.new.play_move { row := 3, col := 5 }).turn = Color.White :=
  ⟨by decide,
   (c2_play_move Board.new { row := 3, col := 5 } (by decide)).1,
   (c2_play_move Board.new { row := 3, col := 5 } (by decide)).2.2.1⟩

/-- Number of squares of the board holding a piece of either colour. -/
def Board.count_occupied (b : Board) : Nat :=
  (POSNS.filter (fun p => b.piece_at p ≠ Square.Unoccupied)).length

/-- Number of Empty squares of the board. -/
def Board.count_empty (b : Board) : Nat :=
  (POSNS.filter (fun p => b.piece_at p = Square.Unoccupied)).length

lemma filter_three_partition (b : Board) : ∀ l : List Posn,
    (l.filter (fun p => b.piece_at p = Square.Occupied Color.Black)).length +
    (l.filter (fun p => b.piece_at p = Square.Occupied Color.White)).length +
    (l.filter (fun p => b.piece_at p = Square.Unoccupied)).length = l.length := by
  intro l
  induction l with
  | nil => rfl
  | cons x xs ih =>
    rcases hx : b.piece_at x with _ | c
    · simp only [List.filter_cons, hx]
      simp
      omega
    · rcases c with _ | _ <;>
      · simp only [List.filter_cons, hx]
        simp
        omega

lemma length_filter_le_of_imp {α : Type} (l : List α) (f g : α → Bool)
    (h : ∀ x ∈ l, f x = true → g x = true) :
    (l.filter f).length ≤ (l.filter g).length := by
  induction l with
  | nil => simp
  | cons x xs ih =>
    have ih2 := ih (fun y hy => h y (List.mem_cons_of_mem _ hy))
    by_cases hf : f x = true
    · have hg := h x (List.mem_cons_self _ _) hf
      simp only [List.filter_cons, hf, hg, if_true]
      simpa using ih2
    · have hf2 : f x = false := by simpa using hf
      simp only [List.filter_cons, hf2, if_false]
      by_cases hg : g x = true
      · simp only [hg, if_true]
        calc (xs.filter f).length ≤ (xs.filter g).length := ih2
          _ ≤ (x :: xs.filter g).length := by simp
      · have hg2 : g x = false := by simpa using hg
        simpa [hg2] using ih2

/-- C9: the Black, White and Empty square counts always sum to the number
of board squares, and a legal move never decreases the number of occupied
squares. -/
theorem c9_count_invariants (b : Board) :
    (b.count_color_pieces Color.Black + b.count_color_pieces Color.White +
      b.count_empty = ROWS * COLS) ∧
    (∀ posn : Posn, b.is_legal posn = true →
      b.count_occupied ≤ (b.play_move posn).count_occupied) := by
  constructor
  · have hpart := filter_three_partition b POSNS
    have hlen : POSNS.length = ROWS * COLS := by decide
    unfold Board.count_color_pieces Board.count_empty
    omega
  · intro posn _
    unfold Board.count_occupied
    apply length_filter_le_of_imp
    intro q _ hocc
    simp only [decide_eq_true_eq] at hocc ⊢
    rw [piece_at_play_move]
    by_cases h1 : q = posn
    · simp [h1]
    · by_cases h2 : q ∈ b.potential_flipped_pieces posn
      · simp [h1, h2]
      · simpa [h1, h2] using hocc

theorem c9_witness :
    Board.new.is_legal { row := 3, col := 5 } = true ∧
    Board.new.count_occupied ≤ (Board.new.play_move { row := 3, col := 5 }).count_occupied :=
  ⟨by decide, (c9_count_invariants Board.new).2 { row := 3, col := 5 } (by decide)⟩

lemma minimaxLoop_result (step : Posn → Int) (turn : Color) (l : List Posn) :
    ∀ best : Int,
      minimaxLoop step turn l best = best ∨
      ∃ q ∈ l, minimaxLoop step turn l best = step q := by
  induction l with
  | nil =>
    intro best
    left
    rfl
  | cons x xs ih =>
    intro best
    cases turn with
    | White =>
      have hu : minimaxLoop step Color.White (x :: xs) best =
          if best < step x then
            (if step x = i32MAX then step x else minimaxLoop step Color.White xs (step x))
          else minimaxLoop step Color.White xs best := rfl
      rw [hu]
      by_cases h1 : best < step x
      · rw [if_pos h1]
        by_cases h2 : step x = i32MAX
        · rw [if_pos h2]
          exact Or.inr ⟨x, List.mem_cons_self x xs, rfl⟩
        · rw [if_neg h2]
          rcases ih (step x) with h | ⟨q, hq, he⟩
          · exact Or.inr ⟨x, List.mem_cons_self x xs, h⟩
          · exact Or.inr ⟨q, List.mem_cons_of_mem x hq, he⟩
      · rw [if_neg h1]
        rcases ih best with h | ⟨q, hq, he⟩
        · exact Or.inl h
        · exact Or.inr ⟨q, List.mem_cons_of_mem x hq, he⟩
    | Black =>
      have hu : minimaxLoop step Color.Black (x :: xs) best =
          if step x < best then
            (if step x = i32MIN then step x else minimaxLoop step Color.Black xs (step x))
          else minimaxLoop step Color.Black xs best := rfl
      rw [hu]
      by_cases h1 : step x < best
      · rw [if_pos h1]
        by_cases h2 : step x = i32MIN
        · rw [if_pos h2]
          exact Or.inr ⟨x, List.mem_cons_self x xs, rfl⟩
        · rw [if_neg h2]
          rcases ih (step x) with h | ⟨q, hq, he⟩
          · exact Or.inr ⟨x, List.mem_cons_self x xs, h⟩
          · exact Or.inr ⟨q, List.mem_cons_of_mem x hq, he⟩
      · rw [if_neg h1]
        rcases ih best with h | ⟨q, hq, he⟩
        · exact Or.inl h
        · exact Or.inr ⟨q, List.mem_cons_of_mem x hq, he⟩

/-- Every minimax value is either a value of the evaluator at some board or
one of the three terminal sentinels. -/
lemma minimax_mem (E : Board → Int) :
    ∀ (d : Nat) (b : Board),
      (∃ c : Board, minimax b d E = E c) ∨
      minimax b d E = i32MIN ∨ minimax b d E = i32MAX ∨ minimax b d E = 0 := by
  intro d
  induction d with
  | zero =>
    intro b
    rw [minimax_zero]
    by_cases ho : b.is_over = true
    · rw [if_pos ho]
      rcases hw : b.winner with _ | c
      · right; right; right; rfl
      · cases c
        · right; left; rfl
        · right; right; left; rfl
    · rw [if_neg ho]
      exact Or.inl ⟨b, rfl⟩
  | succ d ih =>
    intro b
    rw [minimax_succ]
    by_cases ho : b.is_over = true
    · rw [if_pos ho]
      rcases hw : b.winner with _ | c
      · right; right; right; rfl
      · cases c
        · right; left; rfl
        · right; right; left; rfl
    · rw [if_neg ho]
      rcases minimaxLoop_result (fun posn => minimax (b.play_move posn) d E) b.turn
          b.legal_moves
          (match b.turn with
           | Color.White => i32MIN
           | Color.Black => i32MAX) with h | ⟨q, _, he⟩
      · rw [h]
        cases b.turn
        · right; right; left; rfl
        · right; left; rfl
      · rw [he]
        exact ih (b.play_move q)

lemma count_color_pieces_le (b : Board) (c : Color) : b.count_color_pieces c ≤ 64 := by
  unfold Board.count_color_pieces
  calc (POSNS.filter (fun p => b.piece_at p = Square.Occupied c)).length
      ≤ POSNS.length := List.length_filter_le _ _
    _ = 64 := by decide

lemma standard_heuristic_lower (b : Board) : -64 ≤ standard_heuristic b := by
  unfold standard_heuristic Board.score
  have h1 := count_color_pieces_le b Color.Black
  omega

/-- C6 counterexample: `passBoard` is not terminal (White has no legal
move but Black does), yet `minimax` at depth 1 returns `i32MIN`, a value
the evaluator `standard_heuristic` never takes on any board. -/
theorem c6_counterexample :
    passBoard.is_over = false ∧
    passBoard.legal_moves = [] ∧
    minimax passBoard 1 standard_heuristic = i32MIN ∧
    (∀ b : Board, standard_heuristic b ≠ i32MIN) := by
  refine ⟨by decide, by decide, by decide, fun b => ?_⟩
  have h1 := standard_heuristic_lower b
  have h2 : i32MIN = -2147483648 := by norm_num [i32MIN]
  omega

/-- C6 amended: at a non-terminal board with depth at least 1, minimax
returns either a value of the evaluator at some board or one of the
terminal sentinels (`i32MIN`, `i32MAX`, `0`); when the side to move has no
legal move (a pass position), it returns that side's worst sentinel, not a
value in the evaluator's range. -/
theorem c6_minimax_range_amended (b : Board) (d : Nat) (E : Board → Int)
    (hd : 1 ≤ d) (ho : b.is_over = false) :
    ((∃ c : Board, minimax b d E = E c) ∨
      minimax b d E = i32MIN ∨ minimax b d E = i32MAX ∨ minimax b d E = 0) ∧
    (b.legal_moves = [] →
      minimax b d E =
        (match b.turn with
         | Color.White => i32MIN
         | Color.Black => i32MAX)) := by
  refine ⟨minimax_mem E d b, fun hlm => ?_⟩
  obtain ⟨e, rfl⟩ : ∃ e, d = e + 1 := ⟨d - 1, by omega⟩
  rw [minimax_succ, if_neg (by simp [ho]), hlm]
  rfl

theorem c6_witness :
    1 ≤ 1 ∧ passBoard.is_over = false ∧ passBoard.legal_moves = [] ∧
    minimax passBoard 1 standard_heuristic =
      (match passBoard.turn with
       | Color.White => i32MIN
       | Color.Black => i32MAX) :=
  ⟨le_refl 1, by decide, by decide,
   (c6_minimax_range_amended passBoard 1 standard_heuristic (le_refl 1) (by decide)).2
     (by decide)⟩

lemma max_by_key_split {α : Type} (key : α → Int) (xs : List α) : ∀ a : α,
    ∃ l1 l2 r,
      xs.foldl (fun acc y => if key acc ≤ key y then y else acc) a = r ∧
      a :: xs = l1 ++ r :: l2 ∧
      (∀ q ∈ l1, key q ≤ key r) ∧
      (∀ q ∈ l2, key q < key r) := by
  induction xs with
  | nil =>
    intro a
    exact ⟨[], [], a, rfl, rfl, by simp, by simp⟩
  | cons y ys ih =>
    intro a
    rw [List.foldl_cons]
    by_cases h : key a ≤ key y
    · rw [if_pos h]
      obtain ⟨l1, l2, r, hr, hsplit, hle, hlt⟩ := ih y
      have hyr : key y ≤ key r := by
        cases l1 with
        | nil =>
          rw [List.nil_append] at hsplit
          injection hsplit with e1 _
          rw [e1]
        | cons z zs =>
          rw [List.cons_append] at hsplit
          injection hsplit with e1 _
          rw [e1]
          exact hle z (List.mem_cons_self _ _)
      refine ⟨a :: l1, l2, r, hr, ?_, ?_, hlt⟩
      · rw [List.cons_append, ← hsplit]
      · intro q hq
        rcases List.mem_cons.mp hq with rfl | hq2
        · exact le_trans h hyr
        · exact hle q hq2
    · rw [if_neg h]
      push_neg at h
      obtain ⟨l1, l2, r, hr, hsplit, hle, hlt⟩ := ih a
      cases l1 with
      | nil =>
        rw [List.nil_append] at hsplit
        injection hsplit with e1 e2
        subst e1
        subst e2
        refine ⟨[], y :: ys, a, hr, by simp, by simp, ?_⟩
        intro q hq
        rcases List.mem_cons.mp hq with rfl | hq2
        · exact h
        · exact hlt q hq2
      | cons z zs =>
        rw [List.cons_append] at hsplit
        injection hsplit with e1 e2
        subst e1
        have har : key a ≤ key r := hle a (List.mem_cons_self _ _)
        refine ⟨a :: y :: zs, l2, r, hr, ?_, ?_, hlt⟩
        · rw [List.cons_append, List.cons_append, ← e2]
        · intro q hq
          rcases List.mem_cons.mp hq with rfl | hq2
          · exact har
          rcases List.mem_cons.mp hq2 with rfl | hq3
          · exact le_trans (le_of_lt h) har
          · exact hle q (List.mem_cons_of_mem _ hq3)

lemma min_by_key_split {α : Type} (key : α → Int) (xs : List α) : ∀ a : α,
    ∃ l1 l2 r,
      xs.foldl (fun acc y => if key y < key acc then y else acc) a = r ∧
      a :: xs = l1 ++ r :: l2 ∧
      (∀ q ∈ l1, key r < key q) ∧
      (∀ q ∈ l2, key r ≤ key q) := by
  induction xs with
  | nil =>
    intro a
    exact ⟨[], [], a, rfl, rfl, by simp, by simp⟩
  | cons y ys ih =>
    intro a
    rw [List.foldl_cons]
    by_cases h : key y < key a
    · rw [if_pos h]
      obtain ⟨l1, l2, r, hr, hsplit, hgt, hge⟩ := ih y
      have hry : key r ≤ key y := by
        cases l1 with
        | nil =>
          rw [List.nil_append] at hsplit
          injection hsplit with e1 _
          rw [e1]
        | cons z zs =>
          rw [List.cons_append] at hsplit
          injection hsplit with e1 _
          rw [e1]
          exact le_of_lt (hgt z (List.mem_cons_self _ _))
      refine ⟨a :: l1, l2, r, hr, ?_, ?_, hge⟩
      · rw [List.cons_append, ← hsplit]
      · intro q hq
        rcases List.mem_cons.mp hq with rfl | hq2
        · exact lt_of_le_of_lt hry h
        · exact hgt q hq2
    · rw [if_neg h]
      push_neg at h
      obtain ⟨l1, l2, r, hr, hsplit, hgt, hge⟩ := ih a
      cases l1 with
      | nil =>
        rw [List.nil_append] at hsplit
        injection hsplit with e1 e2
        subst e1
        subst e2
        refine ⟨[], y :: ys, a, hr, by simp, by simp, ?_⟩
        intro q hq
        rcases List.mem_cons.mp hq with rfl | hq2
        · exact h
        · exact hge q hq2
      | cons z zs =>
        rw [List.cons_append] at hsplit
        injection hsplit with e1 e2
        subst e1
        have hra : key r < key a := hgt a (List.mem_cons_self _ _)
        refine ⟨a :: y :: zs, l2, r, hr, ?_, ?_, hge⟩
        · rw [List.cons_append, List.cons_append, ← e2]
        · intro q hq
          rcases List.mem_cons.mp hq with rfl | hq2
          · exact hra
          rcases List.mem_cons.mp hq2 with rfl | hq3
          · exact lt_of_lt_of_le hra h
          · exact hgt q (List.mem_cons_of_mem _ hq3)

lemma max_by_key_spec {α : Type} (key : α → Int) (l : List α) (h : l ≠ []) :
    ∃ r l1 l2, max_by_key key l = some r ∧ l = l1 ++ r :: l2 ∧
      (∀ q ∈ l1, key q ≤ key r) ∧ (∀ q ∈ l2, key q < key r) := by
  cases l with
  | nil => exact absurd rfl h
  | cons x xs =>
    obtain ⟨l1, l2, r, hr, hsplit, hle, hlt⟩ := max_by_key_split key xs x
    refine ⟨r, l1, l2, ?_, hsplit, hle, hlt⟩
    rw [max_by_key, hr]

lemma min_by_key_spec {α : Type} (key : α → Int) (l : List α) (h : l ≠ []) :
    ∃ r l1 l2, min_by_key key l = some r ∧ l = l1 ++ r :: l2 ∧
      (∀ q ∈ l1, key r < key q) ∧ (∀ q ∈ l2, key r ≤ key q) := by
  cases l with
  | nil => exact absurd rfl h
  | cons x xs =>
    obtain ⟨l1, l2, r, hr, hsplit, hgt, hge⟩ := min_by_key_split key xs x
    refine ⟨r, l1, l2, ?_, hsplit, hgt, hge⟩
    rw [min_by_key, hr]

/-- C7 counterexample: on `tieBoard` White's two legal moves (0,0) and
(4,0) tie for the extremal value under `standard_heuristic`, and both
agents return (4,0), the later move in row-major order, not the earlier
one the claim requires. -/
theorem c7_counterexample :
    tieBoard.turn = Color.White ∧
    tieBoard.legal_moves = [{ row := 0, col := 0 }, { row := 4, col := 0 }] ∧
    standard_heuristic (tieBoard.play_move { row := 0, col := 0 }) =
      standard_heuristic (tieBoard.play_move { row := 4, col := 0 }) ∧
    heuristic_agent tieBoard standard_heuristic = some { row := 4, col := 0 } ∧
    minimax_agent tieBoard 1 standard_heuristic = some { row := 4, col := 0 } := by
  refine ⟨rfl, by decide, by decide, by decide, by decide⟩

/-- C7 amended: with at least one legal move, each agent returns a legal
move whose evaluated value is extremal for the side to move (max for
White, min for Black); on ties, Black's agents return the earliest such
move in row-major order, while White's agents return the latest (Rust's
`max_by`/`max_by_key` keep the last maximal element, `min_by`/`min_by_key`
the first minimal one).  The returned move `p` splits the legal-move list
as `l1 ++ p :: l2` with the stated strict bounds expressing the
tie-break. -/
theorem c7_agents_extremal_amended (b : Board) (E : Board → Int) (d : Nat)
    (h : b.legal_moves ≠ []) :
    (∃ p l1 l2, heuristic_agent b E = some p ∧ b.legal_moves = l1 ++ p :: l2 ∧
      (b.turn = Color.White →
        (∀ q ∈ l1, E (b.play_move q) ≤ E (b.play_move p)) ∧
        (∀ q ∈ l2, E (b.play_move q) < E (b.play_move p))) ∧
      (b.turn = Color.Black →
        (∀ q ∈ l1, E (b.play_move p) < E (b.play_move q)) ∧
        (∀ q ∈ l2, E (b.play_move p) ≤ E (b.play_move q)))) ∧
    (∃ p l1 l2, minimax_agent b d E = some p ∧ b.legal_moves = l1 ++ p :: l2 ∧
      (b.turn = Color.White →
        (∀ q ∈ l1, minimax (b.play_move q) (d - 1) E ≤ minimax (b.play_move p) (d - 1) E) ∧
        (∀ q ∈ l2, minimax (b.play_move q) (d - 1) E < minimax (b.play_move p) (d - 1) E)) ∧
      (b.turn = Color.Black →
        (∀ q ∈ l1, minimax (b.play_move p) (d - 1) E < minimax (b.play_move q) (d - 1) E) ∧
        (∀ q ∈ l2, minimax (b.play_move p) (d - 1) E ≤ minimax (b.play_move q) (d - 1) E))) := by
  cases ht : b.turn with
  | White =>
    constructor
    · obtain ⟨r, l1, l2, hsome, hsplit, hle, hlt⟩ :=
        max_by_key_spec (fun q => E (b.play_move q)) b.legal_moves h
      refine ⟨r, l1, l2, ?_, hsplit, fun _ => ⟨hle, hlt⟩,
        fun hw => absurd hw (by decide)⟩
      simp [heuristic_agent, ht, hsome]
    · obtain ⟨r, l1, l2, hsome, hsplit, hle, hlt⟩ :=
        max_by_key_spec (fun q => minimax (b.play_move q) (d - 1) E) b.legal_moves h
      refine ⟨r, l1, l2, ?_, hsplit, fun _ => ⟨hle, hlt⟩,
        fun hw => absurd hw (by decide)⟩
      simp [minimax_agent, ht, hsome]
  | Black =>
    constructor
    · obtain ⟨r, l1, l2, hsome, hsplit, hgt, hge⟩ :=
        min_by_key_spec (fun q => E (b.play_move q)) b.legal_moves h
      refine ⟨r, l1, l2, ?_, hsplit,
        fun hw => absurd hw (by decide), fun _ => ⟨hgt, hge⟩⟩
      simp [heuristic_agent, ht, hsome]
    · obtain ⟨r, l1, l2, hsome, hsplit, hgt, hge⟩ :=
        min_by_key_spec (fun q => minimax (b.play_move q) (d - 1) E) b.legal_moves h
      refine ⟨r, l1, l2, ?_, hsplit,
        fun hw => absurd hw (by decide), fun _ => ⟨hgt, hge⟩⟩
      simp [minimax_agent, ht, hsome]

theorem c7_witness :
    Board.new.legal_moves ≠ [] ∧
    (∃ p, heuristic_agent Board.new standard_heuristic = some p ∧
      p ∈ Board.new.legal_moves) := by
  have h : Board.new.legal_moves ≠ [] := by decide
  obtain ⟨⟨p, l1, l2, hsome, hsplit, _, _⟩, _⟩ :=
    c7_agents_extremal_amended Board.new standard_heuristic 2 h
  refine ⟨h, p, hsome, ?_⟩
  rw [hsplit]
  exact List.mem_append.mpr (Or.inr (List.mem_cons_self _ _))

lemma ray_step_shift (dir : Dir) (curr : Posn) : ∀ n : Nat,
    ray_step dir (some curr) (n + 1) = ray_step dir (curr.neighbor_in_dir dir) n := by
  intro n
  induction n with
  | zero => rfl
  | succ n ih =>
    show (match ray_step dir (some curr) (n + 1) with
          | some q => q.neighbor_in_dir dir
          | none => none) =
        ray_step dir (curr.neighbor_in_dir dir) (n + 1)
    rw [ih]
    rfl

lemma eq_next_color_of_ne (c t : Color) (h : c ≠ t) : c = next_color t := by
  cases c <;> cases t
  · exact absurd rfl h
  · rfl
  · rfl
  · exact absurd rfl h

/-- Soundness of the capture-line walk: a non-empty result extends the
accumulator by a non-empty block of consecutive ray squares all occupied by
the opponent, with the next ray square on the board and occupied by the
mover's own colour. -/
lemma flipsWalk_sound (b : Board) (dir : Dir) : ∀ (fuel : Nat) (co : Option Posn) (line : List Posn),
    flipsWalk b dir fuel co line ≠ [] →
    ∃ tail : List Posn,
      flipsWalk b dir fuel co line = line ++ tail ∧
      (∀ i < tail.length, ∃ q, ray_step dir co i = some q ∧ tail[i]? = some q ∧
        b.piece_at q = Square.Occupied (next_color b.turn)) ∧
      (∃ q, ray_step dir co tail.length = some q ∧
        b.piece_at q = Square.Occupied b.turn) := by
  intro fuel
  induction fuel with
  | zero =>
    intro co line h
    exfalso
    apply h
    cases co with
    | none => rfl
    | some curr => rfl
  | succ fuel ih =>
    intro co line h
    cases co with
    | none => exact absurd rfl h
    | some curr =>
      have hu : flipsWalk b dir (fuel + 1) (some curr) line =
          match b.piece_at curr with
          | Square.Occupied c =>
            if c = b.turn then line
            else flipsWalk b dir fuel (curr.neighbor_in_dir dir) (line ++ [curr])
          | Square.Unoccupied => [] := rfl
      rcases hp : b.piece_at curr with _ | c
      · rw [hu] at h
        simp only [hp] at h
        exact absurd rfl h
      · rw [hu] at h ⊢
        simp only [hp] at h ⊢
        by_cases hc : c = b.turn
        · rw [if_pos hc] at h ⊢
          refine ⟨[], by simp, by simp, ⟨curr, rfl, ?_⟩⟩
          rw [hp, hc]
        · rw [if_neg hc] at h ⊢
          obtain ⟨tail, heq, hopp, hown⟩ := ih (curr.neighbor_in_dir dir) (line ++ [curr]) h
          refine ⟨curr :: tail, ?_, ?_, ?_⟩
          · rw [heq, List.append_assoc]
            rfl
          · intro i hi
            cases i with
            | zero =>
              refine ⟨curr, rfl, by simp, ?_⟩
              rw [hp]
              exact congrArg Square.Occupied (eq_next_color_of_ne c b.turn hc)
            | succ i =>
              have hi2 : i < tail.length := by simpa using hi
              obtain ⟨q, h1, h2, h3⟩ := hopp i hi2
              refine ⟨q, ?_, ?_, h3⟩
              · rw [ray_step_shift]
                exact h1
              · simpa using h2
          · obtain ⟨q, h1, h2⟩ := hown
            refine ⟨q, ?_, h2⟩
            show ray_step dir (some curr) (tail.length + 1) = some q
            rw [ray_step_shift]
            exact h1

/-- C1: a non-empty capture line consists of at least one square; its
squares are exactly the consecutive ray neighbours of the played position
(the i-th returned square is the (i+1)-st step along the direction), each
occupied by the opponent, and the next ray square beyond the line exists
on the board and is occupied by the mover's own colour.  Consequently a
walk that reaches an Empty square or runs off the board first, or one
whose own-colour square has zero opponents before it, returns the empty
sequence. -/
theorem c1_flips_in_direction (b : Board) (p : Posn) (dir : Dir)
    (h : b.potential_flipped_pieces_in_dir p dir ≠ []) :
    1 ≤ (b.potential_flipped_pieces_in_dir p dir).length ∧
    (∀ i < (b.potential_flipped_pieces_in_dir p dir).length,
      ∃ q, ray_step dir (some p) (i + 1) = some q ∧
        (b.potential_flipped_pieces_in_dir p dir)[i]? = some q ∧
        b.piece_at q = Square.Occupied (next_color b.turn)) ∧
    (∃ q, ray_step dir (some p)
        ((b.potential_flipped_pieces_in_dir p dir).length + 1) = some q ∧
      b.piece_at q = Square.Occupied b.turn) := by
  have h' : flipsWalk b dir (ROWS * COLS) (p.neighbor_in_dir dir) [] ≠ [] := h
  obtain ⟨tail, heq, hopp, hown⟩ :=
    flipsWalk_sound b dir (ROWS * COLS) (p.neighbor_in_dir dir) [] h'
  have he2 : b.potential_flipped_pieces_in_dir p dir = tail := by
    rw [Board.potential_flipped_pieces_in_dir, heq]
    rfl
  refine ⟨?_, ?_, ?_⟩
  · rw [he2]
    have : tail ≠ [] := by
      rw [← he2]
      exact h
    exact List.length_pos.mpr this
  · intro i hi
    rw [he2] at hi ⊢
    obtain ⟨q, h1, h2, h3⟩ := hopp i hi
    refine ⟨q, ?_, h2, h3⟩
    rw [ray_step_shift]
    exact h1
  · obtain ⟨q, h1, h2⟩ := hown
    rw [he2]
    refine ⟨q, ?_, h2⟩
    rw [ray_step_shift]
    exact h1

theorem c1_witness :
    Board.new.potential_flipped_pieces_in_dir { row := 3, col := 5 } Dir.Down ≠ [] ∧
    (∃ q, ray_step Dir.Down (some { row := 3, col := 5 })
        ((Board.new.potential_flipped_pieces_in_dir { row := 3, col := 5 } Dir.Down).length + 1) =
          some q ∧
      Board.new.piece_at q = Square.Occupied Board.new.turn) :=
  ⟨by decide,
   (c1_flips_in_direction Board.new { row := 3, col := 5 } Dir.Down (by decide)).2.2⟩
